import Mathlib

/-!
Verification of `src/bin/coalesce_parquet.py`.

The Python generator `coalesce` is embedded as a structurally recursive
function over lists with an explicit loop state (`batch`, `current_size`);
yields are collected in input order.  The pyarrow sink `stream_to_parquet`
is embedded over a small model of tables; the pyarrow library calls
(`Table.cast`, `concat_tables`) are modelled as explicit parameters or
small model functions, since their code is a third-party library.
-/

set_option autoImplicit false

universe u

/-- Loop state of the `coalesce` generator: the running `batch` and its
accumulated `current_size`, exactly the two local variables of the Python
loop in `coalesce` (src/bin/coalesce_parquet.py lines 53-64). -/
structure CState (T : Type u) where
  batch : List T
  current_size : Nat
deriving DecidableEq

/-- One iteration of the `for item in items` loop body of `coalesce`:
if `current_size + this_size > max_size` the running batch is yielded and
reset, then (in either case) the item is appended and its size added.
Returns the groups yielded at this step together with the new state. -/
def coalesceStep {T : Type u} (max_size : Nat) (sizer : T → Nat)
    (s : CState T) (item : T) : List (List T) × CState T :=
  let this_size := sizer item
  if s.current_size + this_size > max_size then
    ([s.batch], ⟨[item], this_size⟩)
  else
    ([], ⟨s.batch ++ [item], s.current_size + this_size⟩)

/-- The `coalesce` loop run from an arbitrary state, followed by the final
`if batch: yield batch` flush. -/
def coalesceAux {T : Type u} (max_size : Nat) (sizer : T → Nat) :
    List T → CState T → List (List T)
  | [], s => if s.batch.isEmpty then [] else [s.batch]
  | item :: items, s =>
    let p := coalesceStep max_size sizer s item
    p.1 ++ coalesceAux max_size sizer items p.2

/-- `coalesce(items, max_size, sizer)` of src/bin/coalesce_parquet.py:
the generator started with `batch = []`, `current_size = 0`, with its
yielded groups collected in order. -/
def coalesce {T : Type u} (items : List T) (max_size : Nat)
    (sizer : T → Nat) : List (List T) :=
  coalesceAux max_size sizer items ⟨[], 0⟩

/-- Model of a pyarrow table: its schema and its list of rows. -/
structure PTable (S R : Type u) where
  schema : S
  rows : List R
deriving DecidableEq

/-- Python `len` on a pyarrow table is its number of rows; this is the
default `sizer = len` of `coalesce` as used by `coalese_parquets`. -/
def table_len {S R : Type u} (t : PTable S R) : Nat := t.rows.length

/-- Model of `pa.concat_tables`: raises (`none`) on an empty list or a
schema mismatch, otherwise concatenates the rows under the common
schema. -/
def concat_tables {S R : Type u} [DecidableEq S] :
    List (PTable S R) → Option (PTable S R)
  | [] => none
  | t :: ts =>
    if ts.all (fun v => decide (v.schema = t.schema)) then
      some ⟨t.schema, ((t :: ts).map PTable.rows).flatten⟩
    else none

/-- The `for table in tables` loop of `stream_to_parquet`: `written` is the
list of row groups already written; each remaining table is cast to the
fixed `schema` by `castFn` (modelling `pa.Table.cast`, which raises on an
incompatible schema: `none`) and then written as a new row group; a failed
cast aborts the run with the row groups written up to that point. -/
def write_loop {S R : Type u} (castFn : PTable S R → S → Option (PTable S R))
    (schema : S) (written : List (PTable S R)) :
    List (PTable S R) → Except (List (PTable S R)) (List (PTable S R))
  | [] => Except.ok written
  | t :: ts =>
    match castFn t schema with
    | none => Except.error written
    | some u => write_loop castFn schema (written ++ [u]) ts

/-- `stream_to_parquet(path, tables)` of src/bin/coalesce_parquet.py:
`none` when the input is empty (the early return on `StopIteration`: no
output file is created); otherwise the output file, modelled by its schema
(fixed to the first table's schema) and the row groups written: the first
table uncast, then each later table cast by `castFn`. An `Except.error`
value carries the row groups already written when a cast failure aborted
the run. -/
def stream_to_parquet {S R : Type u}
    (castFn : PTable S R → S → Option (PTable S R))
    (tables : List (PTable S R)) :
    Option (S × Except (List (PTable S R)) (List (PTable S R))) :=
  match tables with
  | [] => none
  | first :: rest =>
    some (first.schema, write_loop castFn first.schema [first] rest)

/-- Casting every table of a list to a schema, failing as soon as one cast
fails: the successful part of the writer loop. -/
def cast_all {S R : Type u} (castFn : PTable S R → S → Option (PTable S R))
    (schema : S) : List (PTable S R) → Option (List (PTable S R))
  | [] => some []
  | t :: ts =>
    match castFn t schema with
    | none => none
    | some u => (cast_all castFn schema ts).map (fun l => u :: l)

/-- `coalese_parquets(in_directory, pattern, outpath, max_size=2**20)`:
the tables streamed from the directory are the input list; they are
coalesced with the default row-count sizer `len`, each group is
concatenated by `pa.concat_tables`, and the result is streamed to the
output file. The outer `Option` is `none` when a concatenation raises. -/
def coalese_parquets {S R : Type u} [DecidableEq S]
    (castFn : PTable S R → S → Option (PTable S R))
    (tables : List (PTable S R)) (max_size : Nat := 2 ^ 20) :
    Option (Option (S × Except (List (PTable S R)) (List (PTable S R)))) :=
  ((coalesce tables max_size table_len).mapM concat_tables).map
    (stream_to_parquet castFn)

/-- `main(argv)`: reads `argv[0]` (input directory), `argv[1]` (filename
pattern) and `argv[2]` (output path) and calls `coalese_parquets` with its
default `max_size`; `fetch` models `stream_from_dir` on the directory and
pattern; fewer than three arguments raise an IndexError (`none`). -/
def main_entry {S R : Type u} [DecidableEq S]
    (fetch : String → String → List (PTable S R))
    (castFn : PTable S R → S → Option (PTable S R))
    (argv : List String) :
    Option (Option (Option (S × Except (List (PTable S R)) (List (PTable S R))))) :=
  match argv with
  | in_directory :: pat :: _outpath :: _ =>
    some (coalese_parquets castFn (fetch in_directory pat))
  | _ => none

/-- Example cast used in concrete witnesses: succeeds exactly when the
schema already matches. -/
def exCast : PTable Nat Nat → Nat → Option (PTable Nat Nat) :=
  fun t s => if t.schema = s then some t else none

/-- Example table with schema 0 used in concrete witnesses. -/
def exT1 : PTable Nat Nat := ⟨0, [1, 2]⟩

/-- Example table with schema 1 used in concrete witnesses. -/
def exT2 : PTable Nat Nat := ⟨1, [3]⟩

/-- Example table of one row weighing five bytes-like units, used in the
sizer comparison. -/
def exU1 : PTable Nat Nat := ⟨0, [5]⟩

/-- Example table of one row weighing one bytes-like unit, used in the
sizer comparison. -/
def exU2 : PTable Nat Nat := ⟨0, [1]⟩

example : coalesce [1, 2, 11, 4, 4, 1, 2] 10 (fun x => x)
    = [[1, 2], [11], [4, 4, 1], [2]] := by decide

/-- Flattening the groups produced from any state gives the pending batch
followed by the remaining input. -/
theorem coalesceAux_flatten {T : Type u} (m : Nat) (sizer : T → Nat)
    (l : List T) : ∀ s : CState T,
    (coalesceAux m sizer l s).flatten = s.batch ++ l := by
  induction l with
  | nil =>
    intro s
    by_cases hb : s.batch = []
    · simp [coalesceAux, hb]
    · simp [coalesceAux, List.isEmpty_iff, hb]
  | cons x xs ih =>
    intro s
    by_cases hover : s.current_size + sizer x > m
    · simp [coalesceAux, coalesceStep, hover, ih]
    · simp [coalesceAux, coalesceStep, hover, ih]

/-- Every group produced from a state whose recorded size is the size-sum of
its batch, within budget or a single oversized item, is itself within budget
or a single oversized item. -/
theorem coalesceAux_group_bound {T : Type u} (m : Nat) (sizer : T → Nat)
    (l : List T) : ∀ s : CState T,
    s.current_size = (s.batch.map sizer).sum →
    (s.current_size ≤ m ∨ ∃ x, s.batch = [x] ∧ m < sizer x) →
    ∀ g ∈ coalesceAux m sizer l s,
      (g.map sizer).sum ≤ m ∨ ∃ x, g = [x] ∧ m < sizer x := by
  induction l with
  | nil =>
    intro s hsum hinv g hg
    by_cases hb : s.batch = []
    · simp [coalesceAux, hb] at hg
    · simp [coalesceAux, List.isEmpty_iff, hb] at hg
      subst hg
      rw [hsum] at hinv
      exact hinv
  | cons x xs ih =>
    intro s hsum hinv g hg
    by_cases hover : s.current_size + sizer x > m
    · simp [coalesceAux, coalesceStep, hover] at hg
      rcases hg with hg | hg
      · subst hg
        rw [hsum] at hinv
        exact hinv
      · refine ih ⟨[x], sizer x⟩ (by simp) ?_ g hg
        rcases le_or_lt (sizer x) m with hle | hlt
        · exact Or.inl hle
        · exact Or.inr ⟨x, rfl, hlt⟩
    · simp [coalesceAux, coalesceStep, hover] at hg
      refine ih ⟨s.batch ++ [x], s.current_size + sizer x⟩ (by simp [hsum]) ?_ g hg
      exact Or.inl (Nat.not_lt.mp hover)

/-- Every group emitted by `coalesce` has size-sum at most the budget or is
a single oversized item. -/
theorem coalesce_group_bound {T : Type u} (xs : List T) (m : Nat)
    (sizer : T → Nat) : ∀ g ∈ coalesce xs m sizer,
    (g.map sizer).sum ≤ m ∨ ∃ x, g = [x] ∧ m < sizer x :=
  coalesceAux_group_bound m sizer xs ⟨[], 0⟩ (by simp) (Or.inl (Nat.zero_le m))

/-- Any emitted group containing an item of size above the budget is the
singleton of that item. -/
theorem coalesce_mem_oversized {T : Type u} (xs : List T) (m : Nat)
    (sizer : T → Nat) : ∀ g ∈ coalesce xs m sizer, ∀ x ∈ g,
    m < sizer x → g = [x] := by
  intro g hg x hx hover
  rcases coalesce_group_bound xs m sizer g hg with hle | ⟨y, hy, hys⟩
  · have hxle : sizer x ≤ (g.map sizer).sum :=
      List.single_le_sum (fun a _ => Nat.zero_le a) _ (List.mem_map_of_mem sizer hx)
    omega
  · subst hy
    simp at hx
    subst hx
    rfl

/-- C1: flattening (in order) the groups emitted by `coalesce` gives back
the input sequence exactly: no item lost, duplicated or reordered. -/
theorem coalesce_join_eq {T : Type u} (xs : List T) (m : Nat)
    (sizer : T → Nat) : (coalesce xs m sizer).flatten = xs := by
  simpa using coalesceAux_flatten m sizer xs ⟨[], 0⟩

/-- C2: every emitted group that is not the singleton of an oversized item
has size-sum at most the budget. -/
theorem coalesce_group_size_le {T : Type u} (xs : List T) (m : Nat)
    (sizer : T → Nat) : ∀ g ∈ coalesce xs m sizer,
    (¬ ∃ x, g = [x] ∧ m < sizer x) → (g.map sizer).sum ≤ m := by
  intro g hg hnot
  rcases coalesce_group_bound xs m sizer g hg with hle | hov
  · exact hle
  · exact absurd hov hnot

/-- C2 witness: on the docstring example with budget 10, the non-oversized
group [1, 2] has size-sum at most 10. -/
theorem coalesce_group_size_le_witness :
    [1, 2] ∈ coalesce [1, 2, 11, 4, 4, 1, 2] 10 (fun x => x) ∧
    (¬ ∃ x, [1, 2] = [x] ∧ 10 < x) ∧
    (([1, 2].map (fun x : Nat => x)).sum ≤ 10) :=
  ⟨by decide, by rintro ⟨x, hx, -⟩; simp at hx,
    coalesce_group_size_le [1, 2, 11, 4, 4, 1, 2] 10 (fun x => x)
      [1, 2] (by decide) (by rintro ⟨x, hx, -⟩; simp at hx)⟩

/-- C4: an item whose size exceeds the budget is emitted alone: any emitted
group containing it is exactly its singleton, and its singleton group is
among the emitted groups. -/
theorem coalesce_oversized_alone {T : Type u} (xs : List T) (m : Nat)
    (sizer : T → Nat) :
    (∀ g ∈ coalesce xs m sizer, ∀ x ∈ g, m < sizer x → g = [x]) ∧
    (∀ x ∈ xs, m < sizer x → [x] ∈ coalesce xs m sizer) := by
  constructor
  · exact coalesce_mem_oversized xs m sizer
  · intro x hx hover
    have hflat : (coalesce xs m sizer).flatten = xs := by
      simpa using coalesceAux_flatten m sizer xs ⟨[], 0⟩
    rw [← hflat] at hx
    rcases List.mem_flatten.mp hx with ⟨g, hg, hxg⟩
    have := coalesce_mem_oversized xs m sizer g hg x hxg hover
    rwa [← this]

/-- C4 witness: in the docstring example, the oversized item 11 appears
only as the singleton group [11], which is among the emitted groups. -/
theorem coalesce_oversized_alone_witness :
    [11] ∈ coalesce [1, 2, 11, 4, 4, 1, 2] 10 (fun x => x) :=
  (coalesce_oversized_alone [1, 2, 11, 4, 4, 1, 2] 10 (fun x => x)).2
    11 (by decide) (by decide)

/-- Once the pending batch is non-empty, every later emitted group is
non-empty: yields emit the batch just before it is reset, and after every
append the batch is non-empty. -/
theorem coalesceAux_ne_nil {T : Type u} (m : Nat) (sizer : T → Nat)
    (l : List T) : ∀ s : CState T, s.batch ≠ [] →
    ∀ g ∈ coalesceAux m sizer l s, g ≠ [] := by
  induction l with
  | nil =>
    intro s hb g hg
    simp [coalesceAux, List.isEmpty_iff, hb] at hg
    simpa [hg] using hb
  | cons x xs ih =>
    intro s hb g hg
    by_cases hover : s.current_size + sizer x > m
    · simp [coalesceAux, coalesceStep, hover] at hg
      rcases hg with hg | hg
      · simpa [hg] using hb
      · exact ih ⟨[x], sizer x⟩ (by simp) g hg
    · simp [coalesceAux, coalesceStep, hover] at hg
      exact ih ⟨s.batch ++ [x], s.current_size + sizer x⟩ (by simp) g hg

/-- Unfolding `coalesce` on a non-empty input: the first loop iteration
runs from the empty initial state, so it emits the empty batch exactly when
the first item is oversized, and in either case continues with the first
item alone in the batch. -/
theorem coalesce_cons {T : Type u} (x : T) (xs : List T) (m : Nat)
    (sizer : T → Nat) :
    coalesce (x :: xs) m sizer =
      (if m < sizer x then [[]] else [])
        ++ coalesceAux m sizer xs ⟨[x], sizer x⟩ := by
  by_cases hover : m < sizer x
  · simp [coalesce, coalesceAux, coalesceStep, hover]
  · simp [coalesce, coalesceAux, coalesceStep, hover]

/-- C10: the empty group is emitted exactly when the input is non-empty and
its first item is oversized; in that case it is the first group and every
later group is non-empty (so exactly one empty group is emitted). -/
theorem coalesce_empty_group_iff {T : Type u} (xs : List T) (m : Nat)
    (sizer : T → Nat) :
    (([] ∈ coalesce xs m sizer) ↔ ∃ x l, xs = x :: l ∧ m < sizer x) ∧
    ([] ∈ coalesce xs m sizer →
      (coalesce xs m sizer).head? = some [] ∧
      ∀ g ∈ (coalesce xs m sizer).tail, g ≠ []) := by
  cases xs with
  | nil =>
    constructor
    · simp [coalesce, coalesceAux]
    · simp [coalesce, coalesceAux]
  | cons x l =>
    by_cases hover : m < sizer x
    · constructor
      · simp [coalesce_cons, hover]
      · intro _
        constructor
        · simp [coalesce_cons, hover]
        · simpa [coalesce_cons, hover] using
            coalesceAux_ne_nil m sizer l ⟨[x], sizer x⟩ (by simp)
    · have hne : ∀ g ∈ coalesceAux m sizer l ⟨[x], sizer x⟩, g ≠ [] :=
        coalesceAux_ne_nil m sizer l ⟨[x], sizer x⟩ (by simp)
      constructor
      · constructor
        · intro hmem
          rw [coalesce_cons x l m sizer] at hmem
          simp [hover] at hmem
          exact absurd rfl (hne [] hmem)
        · rintro ⟨y, l', hy, hovy⟩
          cases hy
          exact absurd hovy hover
      · intro hmem
        rw [coalesce_cons x l m sizer] at hmem
        simp [hover] at hmem
        exact absurd rfl (hne [] hmem)

/-- C10 witness: with budget 10 and an oversized first item 11, the empty
group is emitted, it is the first group, and every later group is
non-empty. -/
theorem coalesce_empty_group_iff_witness :
    (coalesce [11, 1] 10 (fun x => x)).head? = some [] ∧
    ∀ g ∈ (coalesce [11, 1] 10 (fun x => x)).tail, g ≠ [] :=
  (coalesce_empty_group_iff [11, 1] 10 (fun x => x)).2 (by decide)

/-- C3 counterexample: with budget 10 and input [11], the group list
produced by `coalesce` contains the empty group (the loop yields the batch
without checking that it is non-empty), so not every emitted group is
non-empty. -/
theorem coalesce_nonempty_cex :
    ¬ (∀ g ∈ coalesce [11] 10 (fun x => x), g ≠ []) := by
  decide

/-- C3 amended: the empty input yields zero groups, and any emitted empty
group is the first group and occurs only when the first input item is
oversized (so for inputs whose first item is within budget, every emitted
group is non-empty). -/
theorem coalesce_nonempty_except_lead {T : Type u} (xs : List T) (m : Nat)
    (sizer : T → Nat) :
    coalesce ([] : List T) m sizer = [] ∧
    (∀ g ∈ coalesce xs m sizer, g = [] →
      (coalesce xs m sizer).head? = some g ∧ ∃ x l, xs = x :: l ∧ m < sizer x) := by
  constructor
  · simp [coalesce, coalesceAux]
  · intro g hg hgnil
    subst hgnil
    cases xs with
    | nil =>
      simp [coalesce, coalesceAux] at hg
    | cons x l =>
      have hne : ∀ g ∈ coalesceAux m sizer l ⟨[x], sizer x⟩, g ≠ [] :=
        coalesceAux_ne_nil m sizer l ⟨[x], sizer x⟩ (by simp)
      by_cases hover : m < sizer x
      · refine ⟨by simp [coalesce_cons, hover], x, l, rfl, hover⟩
      · rw [coalesce_cons x l m sizer] at hg
        simp [hover] at hg
        exact absurd rfl (hne [] hg)

/-- C3 amended witness: with an oversized first item, the emitted empty
group is the head of the output and the first item is indeed oversized. -/
theorem coalesce_nonempty_except_lead_witness :
    (coalesce [11, 1] 10 (fun x => x)).head? = some [] ∧
    ∃ x l, ([11, 1] : List Nat) = x :: l ∧ 10 < x :=
  (coalesce_nonempty_except_lead [11, 1] 10 (fun x => x)).2
    [] (by decide) rfl

/-- C5: an item of size exactly the budget does not close the group
preemptively: processed from the empty state it emits nothing; alone it is
emitted only by the final flush; followed by a positive-size item its group
is emitted first; followed by a zero-size item the group stays open. -/
theorem coalesce_exact_size_item {T : Type u} (x y : T) (ys : List T)
    (m : Nat) (sizer : T → Nat) (_hm : 0 < m) (hx : sizer x = m) :
    (coalesceStep m sizer ⟨[], 0⟩ x = ([], ⟨[x], m⟩)) ∧
    (coalesce [x] m sizer = [[x]]) ∧
    (0 < sizer y → (coalesce (x :: y :: ys) m sizer).head? = some [x]) ∧
    (sizer y = 0 → coalesce [x, y] m sizer = [[x, y]]) := by
  refine ⟨?_, ?_, ?_, ?_⟩
  · simp [coalesceStep, hx]
  · simp [coalesce, coalesceAux, coalesceStep, hx]
  · intro hy
    have hover : m + sizer y > m := Nat.lt_add_of_pos_right hy
    simp [coalesce, coalesceAux, coalesceStep, hx, hover]
  · intro hy
    simp [coalesce, coalesceAux, coalesceStep, hx, hy]

/-- C5 witness: with budget 10, the exact-size item 10 is appended without
any emission, [10] alone flushes as one group, [10, 1, ...] emits [10]
first, and [10, 0] stays a single group. -/
theorem coalesce_exact_size_item_witness :
    (coalesceStep 10 (fun x => x) ⟨[], 0⟩ 10 = ([], ⟨[10], 10⟩)) ∧
    (coalesce [10] 10 (fun x => x) = [[10]]) ∧
    ((coalesce [10, 1] 10 (fun x => x)).head? = some [10]) ∧
    (coalesce [10, 0] 10 (fun x => x) = [[10, 0]]) := by
  have h := coalesce_exact_size_item 10 1 ([] : List Nat) 10 (fun x => x)
    (by decide) (by decide)
  have h0 := coalesce_exact_size_item 10 0 ([] : List Nat) 10 (fun x => x)
    (by decide) (by decide)
  exact ⟨h.1, h.2.1, h.2.2.1 (by decide), h0.2.2.2 (by decide)⟩

/-- If every table of the remaining list casts to the schema, the writer
loop writes them all after the already written groups. -/
theorem write_loop_cast_all_ok {S R : Type u}
    (castFn : PTable S R → S → Option (PTable S R)) (schema : S) :
    ∀ (rest written done : List (PTable S R)),
      cast_all castFn schema rest = some done →
      write_loop castFn schema written rest = Except.ok (written ++ done) := by
  intro rest
  induction rest with
  | nil =>
    intro written done h
    simp [cast_all] at h
    simp [write_loop, ← h]
  | cons t ts ih =>
    intro written done h
    cases hc : castFn t schema with
    | none => simp [cast_all, hc] at h
    | some u =>
      simp [cast_all, hc] at h
      rcases h with ⟨l, hl, hdone⟩
      simp [write_loop, hc, ih (written ++ [u]) l hl, ← hdone]

/-- If the table at position k fails to cast while every table before it
casts, the writer loop aborts having written exactly the groups before
position k. -/
theorem write_loop_cast_fail {S R : Type u}
    (castFn : PTable S R → S → Option (PTable S R)) (schema : S) :
    ∀ (rest : List (PTable S R)) (k : Nat) (t : PTable S R)
      (pre written : List (PTable S R)),
      rest[k]? = some t →
      cast_all castFn schema (rest.take k) = some pre →
      castFn t schema = none →
      write_loop castFn schema written rest = Except.error (written ++ pre) := by
  intro rest
  induction rest with
  | nil =>
    intro k t pre written hk _ _
    simp at hk
  | cons r rs ih =>
    intro k t pre written hk hpre hfail
    cases k with
    | zero =>
      simp at hk
      subst hk
      simp [cast_all] at hpre
      simp [write_loop, hfail, ← hpre]
    | succ k =>
      simp at hk
      cases hc : castFn r schema with
      | none => simp [List.take_succ_cons, cast_all, hc] at hpre
      | some u =>
        simp [List.take_succ_cons, cast_all, hc] at hpre
        rcases hpre with ⟨l, hl, hpre⟩
        simp [write_loop, hc, ih k t l (written ++ [u]) hk hl hfail, ← hpre]

/-- C6: an empty table stream creates no output file: `stream_to_parquet`
returns early, and the full run on zero fragments completes successfully
(no error) with no file produced, for every budget. -/
theorem stream_to_parquet_empty_none {S R : Type u} [DecidableEq S]
    (castFn : PTable S R → S → Option (PTable S R)) :
    stream_to_parquet castFn ([] : List (PTable S R)) = none ∧
    ∀ m : Nat, coalese_parquets castFn ([] : List (PTable S R)) m = some none :=
  ⟨rfl, fun _ => rfl⟩

/-- C7: on a non-empty stream the output schema is fixed to the first
table's schema and the first table is written uncast as the first row
group; when every later table casts, all are written cast, in order; when
the table at position k is the first whose cast fails, the run aborts with
exactly the first table and the cast images of the tables before position
k written. -/
theorem stream_to_parquet_schema_cast {S R : Type u}
    (castFn : PTable S R → S → Option (PTable S R))
    (first : PTable S R) (rest : List (PTable S R)) :
    (∃ r, stream_to_parquet castFn (first :: rest) = some (first.schema, r)) ∧
    (∀ done, cast_all castFn first.schema rest = some done →
      stream_to_parquet castFn (first :: rest)
        = some (first.schema, Except.ok (first :: done))) ∧
    (∀ k t pre, rest[k]? = some t →
      cast_all castFn first.schema (rest.take k) = some pre →
      castFn t first.schema = none →
      stream_to_parquet castFn (first :: rest)
        = some (first.schema, Except.error (first :: pre))) := by
  refine ⟨⟨write_loop castFn first.schema [first] rest, rfl⟩, ?_, ?_⟩
  · intro done h
    simp [stream_to_parquet,
      write_loop_cast_all_ok castFn first.schema rest [first] done h]
  · intro k t pre hk hpre hfail
    simp [stream_to_parquet,
      write_loop_cast_fail castFn first.schema rest k t pre [first] hk hpre hfail]

/-- C7 witness: a two-table stream whose second table has an incompatible
schema aborts with only the first table written, under the fixed schema of
the first table. -/
theorem stream_to_parquet_schema_cast_witness :
    stream_to_parquet exCast [exT1, exT2] = some (0, Except.error [exT1]) :=
  (stream_to_parquet_schema_cast exCast exT1 [exT2]).2.2 0 exT2 []
    (by decide) (by decide) (by decide)

/-- C8: the invocation surface takes three positional arguments (input
directory, filename pattern, output path); `coalese_parquets` takes the
optional fourth `max_size` parameter, which defaults to 2^20 = 1048576 and
is the budget actually used by the coalescing step when supplied. -/
theorem invocation_surface_defaults {S R : Type u} [DecidableEq S]
    (fetch : String → String → List (PTable S R))
    (castFn : PTable S R → S → Option (PTable S R))
    (a b c : String) (rest : List String) :
    (main_entry fetch castFn (a :: b :: c :: rest)
      = some (coalese_parquets castFn (fetch a b) (2 ^ 20))) ∧
    (∀ (tables : List (PTable S R)) (m : Nat),
      coalese_parquets castFn tables m
        = ((coalesce tables m table_len).mapM concat_tables).map
            (stream_to_parquet castFn)) ∧
    ((2 ^ 20 : Nat) = 1048576) :=
  ⟨rfl, fun _ _ => rfl, by norm_num⟩

/-- C9 counterexample: `coalese_parquets(in_directory, pattern, outpath,
max_size=2**20)` offers the caller no sizer: at a concrete input where a
byte-size sizer groups differently, the run of `coalese_parquets` — whose
arguments are only the tables, the cast and the budget — is exactly the
row-count pipeline and is not the byte-size pipeline, so no caller choice
makes the orchestrator group other than by row count. -/
theorem coalese_parquets_sizer_cex :
    coalese_parquets exCast [exU1, exU2] 2
      = ((coalesce [exU1, exU2] 2 table_len).mapM concat_tables).map
          (stream_to_parquet exCast) ∧
    coalese_parquets exCast [exU1, exU2] 2
      ≠ ((coalesce [exU1, exU2] 2 (fun t => t.rows.sum)).mapM
          concat_tables).map (stream_to_parquet exCast) := by
  refine ⟨rfl, ?_⟩
  have h1 : ((coalesce [exU1, exU2] 2 (fun t => t.rows.sum)).mapM
      concat_tables).map (stream_to_parquet exCast)
      = (none : Option (Option (Nat ×
          Except (List (PTable Nat Nat)) (List (PTable Nat Nat))))) := rfl
  have h2 : coalese_parquets exCast [exU1, exU2] 2
      = some (some (0, Except.ok [(⟨0, [5, 1]⟩ : PTable Nat Nat)])) := rfl
  rw [h1, h2]
  simp

/-- C9 amended: the orchestrator `coalese_parquets` takes no sizer
parameter: its run always equals the pipeline built on the row-count sizer
`len`; sizer substitution lives only in the sizer argument of `coalesce`
(in the orchestrator it is only a commented-out line), and that argument is
substitutable: for a byte-size-like sizer the grouping differs from the
row-count grouping. -/
theorem coalese_parquets_sizer :
    (∀ (S R : Type u) (inst : DecidableEq S)
      (castFn : PTable S R → S → Option (PTable S R))
      (tables : List (PTable S R)) (m : Nat),
      @coalese_parquets S R inst castFn tables m
        = ((coalesce tables m (fun t => t.rows.length)).mapM
            (@concat_tables S R inst)).map (stream_to_parquet castFn)) ∧
    (∃ (sizer : PTable Nat Nat → Nat) (xs : List (PTable Nat Nat)) (m : Nat),
      coalesce xs m sizer ≠ coalesce xs m table_len) := by
  refine ⟨fun S R inst castFn tables m => rfl, ?_⟩
  exact ⟨fun t => t.rows.sum, [⟨0, [5]⟩, ⟨0, [1]⟩], 2, by decide⟩
